import Mathlib

/-
Verification of the multi-object tracking engine of `xmot` (file
`src/xmot/mot/kalman.py`), as a shallow embedding in Lean 4.

Conventions of the embedding:
 - Python floats are modelled as rationals (all arithmetic in the tracker is
   exact affine arithmetic on the inputs, so ℚ is adequate and executable).
 - Mutable objects become values; each method returns the updated value.
 - Indexing that can raise `IndexError` in Python is modelled with `Option`:
   a method that would raise returns `none`.
 - `Blob.color` (a `np.random` display attribute, never read by the tracker)
   is omitted from the model.
 - `Blob.masks` holds opaque mask payloads; the whole model is polymorphic in
   the mask type `μ`.
 - `MOT.blobs_all` in Python holds references to the same `Blob` objects as
   `MOT.blobs`, so later in-place mutation of a live blob is seen through both
   lists; the observable content of `blobs_all` is therefore the set of track
   identities ever created, and we model it as the list of their `idx` values.
 - The helpers `cor2cen`, `cen2cor` and `costMatrix` are imported by
   `kalman.py` from `xmot/mot/utils.py`, which is not part of the sources
   under verification; they are modelled from the spec where so marked.
 - `cv.KalmanFilter` (OpenCV) and `scipy.optimize.linear_sum_assignment` are
   external libraries; their operational behaviour is modelled from the spec
   (standard Kalman filter equations with the constant matrices that
   `Blob.__init__` installs, and an optimal assignment solver).
-/

/-- A bounding box `[x1, y1, x2, y2]` of corner coordinates. -/
structure Box where
  x1 : ℚ
  y1 : ℚ
  x2 : ℚ
  y2 : ℚ
deriving DecidableEq

/-- Modelled from the spec: `cor2cen` of `xmot/mot/utils.py` (not under
`src/`); converts a corner-form box to center form
`(center x, center y, width, height)`. -/
def cor2cen (b : Box) : ℚ × ℚ × ℚ × ℚ :=
  ((b.x1 + b.x2) / 2, (b.y1 + b.y2) / 2, b.x2 - b.x1, b.y2 - b.y1)

/-- Modelled from the spec: `cen2cor` of `xmot/mot/utils.py` (not under
`src/`); converts a center-form box back to corner form. -/
def cen2cor (cx cy w h : ℚ) : Box :=
  ⟨cx - w / 2, cy - h / 2, cx + w / 2, cy + h / 2⟩

/-- The measurement vector `np.array(cor2cen(bbox))` as a 4-vector. -/
def measVec (b : Box) : Fin 4 → ℚ :=
  ![(cor2cen b).1, (cor2cen b).2.1, (cor2cen b).2.2.1, (cor2cen b).2.2.2]

/-- The transition matrix `F` installed by `Blob.__init__`
(constant-velocity model on center x, center y, width, height). -/
def Fmat : Matrix (Fin 8) (Fin 8) ℚ :=
  !![1, 0, 0, 0, 1, 0, 0, 0;
     0, 1, 0, 0, 0, 1, 0, 0;
     0, 0, 1, 0, 0, 0, 1, 0;
     0, 0, 0, 1, 0, 0, 0, 1;
     0, 0, 0, 0, 1, 0, 0, 0;
     0, 0, 0, 0, 0, 1, 0, 0;
     0, 0, 0, 0, 0, 0, 1, 0;
     0, 0, 0, 0, 0, 0, 0, 1]

/-- The measurement matrix `np.eye(4, 8)` installed by `Blob.__init__`. -/
def Hmat : Matrix (Fin 4) (Fin 8) ℚ :=
  Matrix.of fun i j => if (i : ℕ) = (j : ℕ) then 1 else 0

/-- The process noise covariance `4 * np.eye(8)` installed by `Blob.__init__`. -/
def Qmat : Matrix (Fin 8) (Fin 8) ℚ := (4 : ℚ) • (1 : Matrix (Fin 8) (Fin 8) ℚ)

/-- The measurement noise covariance `4 * np.eye(4)` installed by
`Blob.__init__`. -/
def Rmat : Matrix (Fin 4) (Fin 4) ℚ := (4 : ℚ) • (1 : Matrix (Fin 4) (Fin 4) ℚ)

/-- Executable inverse of a 4 × 4 rational matrix (via the adjugate; over the
field ℚ this agrees with matrix inversion on invertible matrices). -/
def matInv4 (A : Matrix (Fin 4) (Fin 4) ℚ) : Matrix (Fin 4) (Fin 4) ℚ :=
  A.det⁻¹ • A.adjugate

/-- Modelled from the spec: the state of `cv.KalmanFilter(8, 4, 0)` as used by
`Blob`: the posterior state estimate and the posterior error covariance.
OpenCV initialises both to zero; `Blob.__init__` then overwrites `statePost`. -/
structure Kalman where
  statePost : Fin 8 → ℚ
  errorCovPost : Matrix (Fin 8) (Fin 8) ℚ

namespace Kalman

/-- Modelled from the spec: `cv.KalmanFilter.predict` with the matrices
installed by `Blob.__init__`: it advances the state by the motion model and
grows the error covariance, and copies the prior into the posterior. -/
def predict (k : Kalman) : Kalman :=
  { statePost := Fmat.mulVec k.statePost,
    errorCovPost := Fmat * k.errorCovPost * Fmat.transpose + Qmat }

/-- Modelled from the spec: `cv.KalmanFilter.correct` with the matrices
installed by `Blob.__init__`: the standard Kalman measurement update, fusing
the measurement `z` into the (already predicted) posterior via the Kalman
gain. -/
def correct (k : Kalman) (z : Fin 4 → ℚ) : Kalman :=
  let P := k.errorCovPost
  let S := Hmat * P * Hmat.transpose + Rmat
  let K := P * Hmat.transpose * matInv4 S
  { statePost := k.statePost + K.mulVec (z - Hmat.mulVec k.statePost),
    errorCovPost := P - K * (Hmat * P) }

end Kalman

/-- Class `Blob` of `kalman.py`: one tracked particle. `dead` counts consecutive
undetected frames (the `undetected_count` of the spec). -/
structure Blob (μ : Type) where
  idx : ℕ
  bbox : Box
  masks : List μ
  dead : ℕ
  frames : List ℕ
  kalm : Kalman

namespace Blob

/-- Constructor `Blob.__init__`: state position and size from the box in center form,
velocity components zero; the mask list starts with the initial mask. -/
def init (idx : ℕ) (bbox : Box) (mask : μ) : Blob μ :=
  { idx := idx, bbox := bbox, masks := [mask], dead := 0, frames := [],
    kalm := { statePost := ![(cor2cen bbox).1, (cor2cen bbox).2.1,
                             (cor2cen bbox).2.2.1, (cor2cen bbox).2.2.2, 0, 0, 0, 0],
              errorCovPost := 0 } }

/-- Mutation `b.frames.append(frame_id)`. -/
def addFrame (b : Blob μ) (frame_id : ℕ) : Blob μ :=
  { b with frames := b.frames ++ [frame_id] }

/-- Method `Blob.predict`: advance the Kalman filter and recompute `bbox` from the
returned state. -/
def predict (b : Blob μ) : Blob μ :=
  let k := b.kalm.predict
  { b with kalm := k,
           bbox := cen2cor (k.statePost 0) (k.statePost 1) (k.statePost 2) (k.statePost 3) }

/-- Method `Blob.correct`: append the mask, run the Kalman measurement update, and
recompute `bbox` from the corrected posterior state. -/
def correct (b : Blob μ) (measurement : Fin 4 → ℚ) (mask : μ) : Blob μ :=
  let k := b.kalm.correct measurement
  { b with masks := b.masks ++ [mask], kalm := k,
           bbox := cen2cor (k.statePost 0) (k.statePost 1) (k.statePost 2) (k.statePost 3) }

/-- The loop body of `MOT.__pred`: `blobs[i].predict()` followed by
`blobs[i].frames.append(frame_id)`. -/
def predictF (frame_id : ℕ) (b : Blob μ) : Blob μ :=
  (b.predict).addFrame frame_id

end Blob

/-- Modelled from the spec: the geometric dissimilarity used by `costMatrix`
of `xmot/mot/utils.py` (not under `src/`): a non-negative combination of
squared centroid distance and squared size difference between the two boxes
in center form (the exact metric is a tunable policy in the spec). -/
def dissim (d t : Box) : ℚ :=
  ((cor2cen d).1 - (cor2cen t).1) ^ 2 + ((cor2cen d).2.1 - (cor2cen t).2.1) ^ 2 +
    ((cor2cen d).2.2.1 - (cor2cen t).2.2.1) ^ 2 + ((cor2cen d).2.2.2 - (cor2cen t).2.2.2) ^ 2

/-- Modelled from the spec: `costMatrix(bbox, blobs, fixed_cost)` of
`xmot/mot/utils.py` (not under `src/`): a square matrix of size
`(detections + tracks)`; the entry at `(i, j)` with `i` a detection and `j` a
track is the geometric dissimilarity between detection `i` and the predicted
box of track `j`; every padding entry is `fixed_cost`. -/
def costMatrix {μ : Type} (bbox : List Box) (blobs : List (Blob μ)) (fixed_cost : ℚ) :
    ℕ → ℕ → ℚ :=
  fun i j =>
    match bbox.get? i, blobs.get? j with
    | some d, some b => dissim d b.bbox
    | _, _ => fixed_cost

/-- The total cost of an assignment `σ` (row `i` matched to column `σ i`). -/
def assignCost (cost : ℕ → ℕ → ℚ) (σ : List ℕ) : ℚ :=
  (σ.enum.map fun p => cost p.1 p.2).sum

/-- Modelled from the spec: `scipy.optimize.linear_sum_assignment` on a square
`n × n` cost matrix: a deterministic minimum-cost perfect matching, returned as
the list of column indices matched to rows `0, …, n-1`. It scans all
permutations of `0, …, n-1` and keeps the first one of minimal total cost, so
ties are broken deterministically; on an all-equal matrix it returns the
identity assignment (the source comments rely on this for empty frames). -/
def lsa (n : ℕ) (cost : ℕ → ℕ → ℚ) : List ℕ :=
  (List.range n).permutations'.foldl
    (fun best σ => if assignCost cost σ < assignCost cost best then σ else best)
    (List.range n)

/-- Class `MOT` of `kalman.py`: the tracking session state. `blobs_all` is modelled
as the list of track ids ever created (see the header comment on aliasing). -/
structure MOT (μ : Type) where
  frame_id : ℕ
  blobs : List (Blob μ)
  blolen : ℕ
  blobs_all : List ℕ
  total_blobs : ℕ
  fixed_cost : ℚ
  merge : Bool
  merge_it : ℕ
  merge_th : ℕ

namespace MOT

/-- The class constant `MOT.UNDETECTION_THRESHOLD = 2`. -/
def UNDETECTION_THRESHOLD : ℕ := 2

end MOT

/-- The creation loop of `MOT.__init__`: one`Blob` per box, with consecutive
ids starting at `first_id`, each recording the given frame id. Indexing
`mask[i]` can raise in Python when `mask` is shorter than `bbox`, hence the
`Option`. -/
def mkNewBlobs {μ : Type} (frame_id : ℕ) (first_id : ℕ) :
    List Box → List μ → Option (List (Blob μ))
  | [], _ => some []
  | _ :: _, [] => none
  | bx :: bs, mk :: ms =>
    (mkNewBlobs frame_id (first_id + 1) bs ms).map
      (fun rest => (Blob.init first_id bx mk).addFrame frame_id :: rest)

/-- Constructor `MOT.__init__(bbox, mask, fixed_cost, merge, merge_it, merge_th)`. -/
def MOT.init {μ : Type} (bbox : List Box) (mask : List μ) (fixed_cost : ℚ)
    (merge : Bool) (merge_it : ℕ) (merge_th : ℕ) : Option (MOT μ) :=
  (mkNewBlobs 0 1 bbox mask).map fun bs =>
    { frame_id := 0, blobs := bs, blolen := bbox.length, blobs_all := bs.map Blob.idx,
      total_blobs := bbox.length, fixed_cost := fixed_cost, merge := merge,
      merge_it := merge_it, merge_th := merge_th }

/-- The loop of `MOT.__pred`: `for i in range(blolen): blobs[i].predict();
blobs[i].frames.append(frame_id)`, over an explicit list of indices. -/
def predLoop {μ : Type} (frame_id : ℕ) : List ℕ → List (Blob μ) → Option (List (Blob μ))
  | [], blobs => some blobs
  | i :: rest, blobs =>
    match blobs.get? i with
    | some b => predLoop frame_id rest (blobs.set i (Blob.predictF frame_id b))
    | none => none

/-- Method `MOT.__pred`. -/
def MOT.pred {μ : Type} (s : MOT μ) : Option (MOT μ) :=
  (predLoop s.frame_id (List.range s.blolen) s.blobs).map fun bl => { s with blobs := bl }

/-- Method `MOT.__hungarian(bbox)`: build the cost matrix over the current blobs and
solve the assignment problem; returns the column (blob) index matched to each
row. -/
def MOT.hungarian {μ : Type} (s : MOT μ) (bbox : List Box) : List ℕ :=
  lsa (bbox.length + s.blobs.length) (costMatrix bbox s.blobs s.fixed_cost)

/-- The loop of `MOT.__update` over an explicit list of row indices:
a row matched to an existing blob index corrects that blob and resets its
`dead` counter; a row matched to a padding column creates a new blob with the
next id. -/
def updLoop {μ : Type} (blolen total frame : ℕ) (bbox : List Box) (blob_ind : List ℕ)
    (mask : List μ) :
    List ℕ → List (Blob μ) → List (Blob μ) → Option (List (Blob μ) × List (Blob μ))
  | [], blobs, new => some (blobs, new)
  | i :: rest, blobs, new =>
    match bbox.get? i, blob_ind.get? i, mask.get? i with
    | some bx, some ind, some mk =>
      if ind < blolen then
        match blobs.get? ind with
        | some b =>
          updLoop blolen total frame bbox blob_ind mask rest
            (blobs.set ind { b.correct (measVec bx) mk with dead := 0 }) new
        | none => none
      else
        updLoop blolen total frame bbox blob_ind mask rest blobs
          (new ++ [(Blob.init (total + new.length + 1) bx mk).addFrame frame])
    | _, _, _ => none

/-- Method `MOT.__update(bbox, blob_ind, mask)`: returns the session with corrected
blobs together with the list of newly created blobs. -/
def MOT.update {μ : Type} (s : MOT μ) (bbox : List Box) (blob_ind : List ℕ) (mask : List μ) :
    Option (MOT μ × List (Blob μ)) :=
  (updLoop s.blolen s.total_blobs s.frame_id bbox blob_ind mask
      (List.range bbox.length) s.blobs []).map
    fun r => ({ s with blobs := r.1 }, r.2)

/-- Method `MOT.__delBlobInd(bbox, blob_ind)`: collect `blob_ind[i]` for the padding
rows `i ≥ len(bbox)` whenever `blob_ind[i] < len(bbox)` (the comparison the
source actually performs). -/
def delBlobInd (bbox : List Box) (blob_ind : List ℕ) : List ℕ :=
  (blob_ind.drop bbox.length).filter fun j => j < bbox.length

/-- Sorting in descending order: `ind_del.sort(reverse=True)`. -/
def sortDesc (l : List ℕ) : List ℕ := l.insertionSort (· ≥ ·)

/-- The loop of `MOT.__delBlobs` after sorting: increment `dead` of the blob
at each index and pop it when `dead` exceeds the threshold. -/
def delLoop {μ : Type} : List (Blob μ) → List ℕ → Option (List (Blob μ))
  | blobs, [] => some blobs
  | blobs, ind :: rest =>
    match blobs.get? ind with
    | some b =>
      if b.dead + 1 > MOT.UNDETECTION_THRESHOLD then delLoop (blobs.eraseIdx ind) rest
      else delLoop (blobs.set ind { b with dead := b.dead + 1 }) rest
    | none => none

/-- Method `MOT.__delBlobs(ind_del)`. -/
def MOT.delBlobs {μ : Type} (s : MOT μ) (ind_del : List ℕ) : Option (MOT μ) :=
  (delLoop s.blobs (sortDesc ind_del)).map fun bl => { s with blobs := bl }

/-- The tail of `MOT.step` after the prediction pass: update matched blobs and
collect new ones, delete stale blobs, then append the new blobs to the live
list and to the all-blobs log, bump the total count, and refresh `blolen`. -/
def MOT.postAssign {μ : Type} (s : MOT μ) (bbox : List Box) (mask : List μ)
    (blob_ind : List ℕ) : Option (MOT μ) := do
  let r ← s.update bbox blob_ind mask
  let s₃ ← r.1.delBlobs (delBlobInd bbox blob_ind)
  let s₄ : MOT μ :=
    { s₃ with blobs := s₃.blobs ++ r.2,
              blobs_all := s₃.blobs_all ++ r.2.map Blob.idx,
              total_blobs := s₃.total_blobs + r.2.length }
  return { s₄ with blolen := s₄.blobs.length }

/-- Method `MOT.step(bbox, mask)`: advance the frame id, predict every live blob,
solve the assignment, and apply the update / delete / append pipeline. -/
def MOT.step {μ : Type} (s : MOT μ) (bbox : List Box) (mask : List μ) : Option (MOT μ) := do
  let s₁ ← ({ s with frame_id := s.frame_id + 1 } : MOT μ).pred
  s₁.postAssign bbox mask (s₁.hungarian bbox)

/-- The predicted session at the start of a step: frame id advanced and every
live blob predicted (equal to the `pred` stage whenever `blolen` equals the
number of live blobs; see `pred_eq_of_wf`). -/
def MOT.stepPred {μ : Type} (s : MOT μ) : MOT μ :=
  { s with frame_id := s.frame_id + 1,
           blobs := s.blobs.map (Blob.predictF (s.frame_id + 1)) }

/-- A concrete session with a single live track, used by the witnesses: one
blob with id 1 at box `(0, 0, 2, 2)`, mask payload `7`. -/
def exBlob : Blob ℕ := (Blob.init 1 ⟨0, 0, 2, 2⟩ 7).addFrame 0

/-- The session produced by `MOT.__init__([(0,0,2,2)], [7])`. -/
def exS : MOT ℕ :=
  { frame_id := 0, blobs := [exBlob], blolen := 1, blobs_all := [1], total_blobs := 1,
    fixed_cost := 100, merge := false, merge_it := 2, merge_th := 50 }

/-- A blob with a chosen id and `dead` counter, for concrete witnesses. -/
def mkB (i d : ℕ) : Blob ℕ :=
  { (Blob.init i ⟨0, 0, 2, 2⟩ 7).addFrame 0 with dead := d }

/-- A session whose single track has `dead = 2` (at the threshold). -/
def exS2 : MOT ℕ :=
  { frame_id := 3, blobs := [mkB 1 2], blolen := 1, blobs_all := [1], total_blobs := 1,
    fixed_cost := 100, merge := false, merge_it := 2, merge_th := 50 }

/-- A session with three tracks of `dead` counters 2, 0, 2, for the witness of
the multi-deletion claim. -/
def exS8 : MOT ℕ :=
  { frame_id := 3, blobs := [mkB 1 2, mkB 2 0, mkB 3 2], blolen := 3, blobs_all := [1, 2, 3],
    total_blobs := 3, fixed_cost := 100, merge := false, merge_it := 2, merge_th := 50 }

/-- The id bookkeeping invariant of a session: the all-track log holds exactly
the ids `1, …, total_blobs` in creation order, and every live track id is in
the log. -/
def idInv {μ : Type} (s : MOT μ) : Prop :=
  s.blobs_all = List.range' 1 s.total_blobs ∧ ∀ b ∈ s.blobs, b.idx ∈ s.blobs_all

lemma exS_eq_init : MOT.init [⟨0, 0, 2, 2⟩] [(7 : ℕ)] 100 false 2 50 = some exS := rfl

lemma Fmat_mulVec_zero (v : Fin 8 → ℚ) : Fmat.mulVec v 0 = v 0 + v 4 := by
  have e5 : Fmat 0 5 = 0 := rfl
  have e6 : Fmat 0 6 = 0 := rfl
  have e7 : Fmat 0 7 = 0 := rfl
  simp [Fmat, Matrix.mulVec, Matrix.dotProduct, Fin.sum_univ_eight] at e5 e6 e7 ⊢
  simp [e5, e6, e7]

lemma Fmat_mulVec_one (v : Fin 8 → ℚ) : Fmat.mulVec v 1 = v 1 + v 5 := by
  have e5 : Fmat 1 5 = 1 := rfl
  have e6 : Fmat 1 6 = 0 := rfl
  have e7 : Fmat 1 7 = 0 := rfl
  simp [Fmat, Matrix.mulVec, Matrix.dotProduct, Fin.sum_univ_eight] at e5 e6 e7 ⊢
  simp [e5, e6, e7]

lemma Fmat_mulVec_two (v : Fin 8 → ℚ) : Fmat.mulVec v 2 = v 2 + v 6 := by
  have e5 : Fmat 2 5 = 0 := rfl
  have e6 : Fmat 2 6 = 1 := rfl
  have e7 : Fmat 2 7 = 0 := rfl
  simp [Fmat, Matrix.mulVec, Matrix.dotProduct, Fin.sum_univ_eight] at e5 e6 e7 ⊢
  simp [e5, e6, e7]

lemma Fmat_mulVec_three (v : Fin 8 → ℚ) : Fmat.mulVec v 3 = v 3 + v 7 := by
  have e5 : Fmat 3 5 = 0 := rfl
  have e6 : Fmat 3 6 = 0 := rfl
  have e7 : Fmat 3 7 = 1 := rfl
  simp [Fmat, Matrix.mulVec, Matrix.dotProduct, Fin.sum_univ_eight] at e5 e6 e7 ⊢
  simp [e5, e6, e7]

/-- C5. For every valid initial box (positive width and height), `predict()`
immediately after creating a track leaves the position and size components of
the state, and hence the bounding box, unchanged (the initial velocity
components are zero); only the internal uncertainty (the error covariance
diagonal) grows. -/
theorem C5_predict_after_create {μ : Type} (idx : ℕ) (bx : Box) (m : μ)
    (hw : bx.x1 < bx.x2) (hh : bx.y1 < bx.y2) :
    ((Blob.init idx bx m).predict.kalm.statePost 0 = (Blob.init idx bx m).kalm.statePost 0) ∧
    ((Blob.init idx bx m).predict.kalm.statePost 1 = (Blob.init idx bx m).kalm.statePost 1) ∧
    ((Blob.init idx bx m).predict.kalm.statePost 2 = (Blob.init idx bx m).kalm.statePost 2) ∧
    ((Blob.init idx bx m).predict.kalm.statePost 3 = (Blob.init idx bx m).kalm.statePost 3) ∧
    (Blob.init idx bx m).predict.bbox = (Blob.init idx bx m).bbox ∧
    (∀ i : Fin 8,
      (Blob.init idx bx m).kalm.errorCovPost i i <
        (Blob.init idx bx m).predict.kalm.errorCovPost i i) := by
  have h4 : (Blob.init idx bx m).kalm.statePost 4 = 0 := rfl
  have h5 : (Blob.init idx bx m).kalm.statePost 5 = 0 := rfl
  have h6 : (Blob.init idx bx m).kalm.statePost 6 = 0 := rfl
  have h7 : (Blob.init idx bx m).kalm.statePost 7 = 0 := rfl
  have hst : ∀ r : Fin 8,
      (Blob.init idx bx m).predict.kalm.statePost r = Fmat.mulVec ((Blob.init idx bx m).kalm.statePost) r :=
    fun r => rfl
  refine ⟨?_, ?_, ?_, ?_, ?_, ?_⟩
  · rw [hst, Fmat_mulVec_zero, h4, add_zero]
  · rw [hst, Fmat_mulVec_one, h5, add_zero]
  · rw [hst, Fmat_mulVec_two, h6, add_zero]
  · rw [hst, Fmat_mulVec_three, h7, add_zero]
  · show cen2cor ((Blob.init idx bx m).predict.kalm.statePost 0)
        ((Blob.init idx bx m).predict.kalm.statePost 1)
        ((Blob.init idx bx m).predict.kalm.statePost 2)
        ((Blob.init idx bx m).predict.kalm.statePost 3) = bx
    rw [hst, hst, hst, hst, Fmat_mulVec_zero, Fmat_mulVec_one, Fmat_mulVec_two, Fmat_mulVec_three,
      h4, h5, h6, h7]
    have h0 : (Blob.init idx bx m).kalm.statePost 0 = (bx.x1 + bx.x2) / 2 := rfl
    have h1 : (Blob.init idx bx m).kalm.statePost 1 = (bx.y1 + bx.y2) / 2 := rfl
    have h2 : (Blob.init idx bx m).kalm.statePost 2 = bx.x2 - bx.x1 := rfl
    have h3 : (Blob.init idx bx m).kalm.statePost 3 = bx.y2 - bx.y1 := rfl
    rw [h0, h1, h2, h3]
    unfold cen2cor
    cases bx
    simp only [Box.mk.injEq]
    exact ⟨by ring, by ring, by ring, by ring⟩
  · intro i
    have hc : (Blob.init idx bx m).kalm.errorCovPost = 0 := rfl
    have hp : (Blob.init idx bx m).predict.kalm.errorCovPost =
        Fmat * (Blob.init idx bx m).kalm.errorCovPost * Fmat.transpose + Qmat := rfl
    rw [hp, hc]
    simp [Qmat, Matrix.smul_apply, Matrix.one_apply_eq]

/-- Witness for C5 at a concrete valid box. -/
theorem C5_predict_after_create_witness :
    ((0 : ℚ) < 2 ∧ (0 : ℚ) < 2) ∧
    ((Blob.init 1 ⟨0, 0, 2, 2⟩ (7 : ℕ)).predict.kalm.statePost 0 =
      (Blob.init 1 ⟨0, 0, 2, 2⟩ (7 : ℕ)).kalm.statePost 0) ∧
    (Blob.init 1 ⟨0, 0, 2, 2⟩ (7 : ℕ)).predict.bbox = (Blob.init 1 ⟨0, 0, 2, 2⟩ (7 : ℕ)).bbox :=
  ⟨⟨by norm_num, by norm_num⟩,
   (C5_predict_after_create 1 ⟨0, 0, 2, 2⟩ (7 : ℕ) (by norm_num) (by norm_num)).1,
   (C5_predict_after_create 1 ⟨0, 0, 2, 2⟩ (7 : ℕ) (by norm_num) (by norm_num)).2.2.2.2.1⟩
section ArgMin

variable {α : Type}

lemma argmin_foldl_mem (f : α → ℚ) (init : α) (l : List α) :
    l.foldl (fun best σ => if f σ < f best then σ else best) init ∈ init :: l := by
  induction l generalizing init with
  | nil => simp
  | cons a l ih =>
    simp only [List.foldl_cons]
    rcases List.mem_cons.mp (ih (if f a < f init then a else init)) with h | h
    · rw [h]
      split
      · exact List.mem_cons_of_mem _ (List.mem_cons_self _ _)
      · exact List.mem_cons_self _ _
    · exact List.mem_cons_of_mem _ (List.mem_cons_of_mem _ h)

lemma argmin_foldl_le (f : α → ℚ) (init : α) (l : List α) :
    ∀ x ∈ init :: l, f (l.foldl (fun best σ => if f σ < f best then σ else best) init) ≤ f x := by
  induction l generalizing init with
  | nil => simp
  | cons a l ih =>
    intro x hx
    simp only [List.foldl_cons]
    have hinit : f (if f a < f init then a else init) ≤ f init := by
      split
      · exact le_of_lt (by assumption)
      · exact le_refl _
    have ha : f (if f a < f init then a else init) ≤ f a := by
      split
      · exact le_refl _
      · exact le_of_not_lt (by assumption)
    have hres := ih (if f a < f init then a else init)
    rcases List.mem_cons.mp hx with h | h
    · exact le_trans (hres _ (List.mem_cons_self _ _)) (h ▸ hinit)
    · rcases List.mem_cons.mp h with h' | h'
      · exact le_trans (hres _ (List.mem_cons_self _ _)) (h' ▸ ha)
      · exact hres _ (List.mem_cons_of_mem _ h')

end ArgMin

lemma lsa_perm (n : ℕ) (cost : ℕ → ℕ → ℚ) : (lsa n cost).Perm (List.range n) := by
  rcases List.mem_cons.mp
      (argmin_foldl_mem (assignCost cost) (List.range n) (List.range n).permutations') with h | h
  · rw [lsa, h]
  · exact List.mem_permutations'.mp h

lemma lsa_min (n : ℕ) (cost : ℕ → ℕ → ℚ) (σ : List ℕ) (hσ : σ.Perm (List.range n)) :
    assignCost cost (lsa n cost) ≤ assignCost cost σ :=
  argmin_foldl_le (assignCost cost) (List.range n) (List.range n).permutations' σ
    (List.mem_cons_of_mem _ (List.mem_permutations'.mpr hσ))

/-- C6. The assignment returned by the solver on a square cost matrix of size
`n` is a valid one-to-one correspondence (a permutation of the columns
`0, …, n-1`) whose total cost is less than or equal to that of every other
one-to-one correspondence over the same matrix. (The solver is a pure
function, hence deterministic for a given matrix by construction.) -/
theorem C6_lsa_optimal (n : ℕ) (cost : ℕ → ℕ → ℚ) (σ : List ℕ)
    (hσ : σ.Perm (List.range n)) :
    (lsa n cost).Perm (List.range n) ∧ assignCost cost (lsa n cost) ≤ assignCost cost σ :=
  ⟨lsa_perm n cost, lsa_min n cost σ hσ⟩

/-- Witness for C6 on a concrete 3 × 3 matrix and the correspondence
`[2, 0, 1]`. -/
theorem C6_lsa_optimal_witness :
    (lsa 3 (fun i j => if i = j then (5 : ℚ) else (i + 2) * (j + 3))).Perm (List.range 3) ∧
      assignCost (fun i j => if i = j then (5 : ℚ) else (i + 2) * (j + 3))
          (lsa 3 (fun i j => if i = j then (5 : ℚ) else (i + 2) * (j + 3))) ≤
        assignCost (fun i j => if i = j then (5 : ℚ) else (i + 2) * (j + 3)) [2, 0, 1] :=
  C6_lsa_optimal 3 (fun i j => if i = j then (5 : ℚ) else (i + 2) * (j + 3)) [2, 0, 1]
    (by decide)
section ListHelpers

variable {α : Type}

lemma get?_append_cons (l₁ : List α) (b : α) (l₂ : List α) :
    (l₁ ++ b :: l₂).get? l₁.length = some b := by
  induction l₁ with
  | nil => rfl
  | cons a l ih => simpa using ih

lemma set_append_cons (l₁ : List α) (b b' : α) (l₂ : List α) :
    (l₁ ++ b :: l₂).set l₁.length b' = l₁ ++ b' :: l₂ := by
  induction l₁ with
  | nil => rfl
  | cons a l ih => simp [ih]

lemma get?_eraseIdx_of_lt (l : List α) (i p : ℕ) (h : p < i) :
    (l.eraseIdx i).get? p = l.get? p := by
  induction l generalizing i p with
  | nil => simp [List.eraseIdx]
  | cons a l ih =>
    cases i with
    | zero => omega
    | succ i =>
      cases p with
      | zero => rfl
      | succ p => simpa using ih i p (by omega)

lemma get?_eraseIdx_of_ge (l : List α) (i p : ℕ) (h : i ≤ p) :
    (l.eraseIdx i).get? p = l.get? (p + 1) := by
  induction l generalizing i p with
  | nil => simp [List.eraseIdx]
  | cons a l ih =>
    cases i with
    | zero => rfl
    | succ i =>
      cases p with
      | zero => omega
      | succ p => simpa using ih i p (by omega)

lemma set_get?_self (l : List α) (n : ℕ) (a : α) (h : l.get? n = some a) :
    l.set n a = l := by
  induction l generalizing n with
  | nil => rfl
  | cons x l ih =>
    cases n with
    | zero => simp_all
    | succ n => simp_all

lemma nodup_get?_inj {l : List α} (hnd : l.Nodup) {i j : ℕ} {a : α}
    (hi : l.get? i = some a) (hj : l.get? j = some a) : i = j := by
  induction l generalizing i j with
  | nil => simp at hi
  | cons x l ih =>
    rcases List.nodup_cons.mp hnd with ⟨hx, hl⟩
    cases i with
    | zero =>
      cases j with
      | zero => rfl
      | succ j =>
        exfalso
        exact hx ((Option.some.inj hi) ▸ List.get?_mem hj)
    | succ i =>
      cases j with
      | zero =>
        exfalso
        exact hx ((Option.some.inj hj) ▸ List.get?_mem hi)
      | succ j => exact congrArg Nat.succ (ih hl hi hj)

end ListHelpers

section PredLemmas

variable {μ : Type}

lemma predLoop_append (frame : ℕ) (done todo : List (Blob μ)) :
    predLoop frame (List.range' done.length todo.length) (done ++ todo) =
      some (done ++ todo.map (Blob.predictF frame)) := by
  induction todo generalizing done with
  | nil => simp [predLoop]
  | cons b rest ih =>
    simp only [List.length_cons]
    rw [List.range'_succ, predLoop, get?_append_cons]
    dsimp only
    rw [set_append_cons]
    have h1 : done.length + 1 = (done ++ [Blob.predictF frame b]).length := by simp
    have h2 : done ++ Blob.predictF frame b :: rest =
        (done ++ [Blob.predictF frame b]) ++ rest := by simp
    rw [h1, h2, ih (done ++ [Blob.predictF frame b])]
    simp

lemma pred_eq_of_wf (s : MOT μ) (h : s.blolen = s.blobs.length) :
    s.pred = some { s with blobs := s.blobs.map (Blob.predictF s.frame_id) } := by
  unfold MOT.pred
  rw [h, List.range_eq_range']
  have := predLoop_append s.frame_id [] s.blobs
  simp only [List.nil_append, List.length_nil] at this
  rw [this]
  rfl

lemma stepPred_pred (s : MOT μ) (h : s.blolen = s.blobs.length) :
    ({ s with frame_id := s.frame_id + 1 } : MOT μ).pred = some s.stepPred := by
  exact pred_eq_of_wf { s with frame_id := s.frame_id + 1 } h

lemma mkNewBlobs_spec (frame first : ℕ) (bbox : List Box) (mask : List μ)
    (bs : List (Blob μ)) (h : mkNewBlobs frame first bbox mask = some bs) :
    bs.length = bbox.length ∧ bs.map Blob.idx = List.range' first bbox.length ∧
      ∀ b ∈ bs, b.dead = 0 := by
  induction bbox generalizing first mask bs with
  | nil =>
    cases mask <;> simp_all [mkNewBlobs]
  | cons bx rest ih =>
    cases mask with
    | nil => simp [mkNewBlobs] at h
    | cons mk ms =>
      rw [mkNewBlobs, Option.map_eq_some'] at h
      rcases h with ⟨tail, htail, rfl⟩
      rcases ih (first + 1) ms tail htail with ⟨h1, h2, h3⟩
      refine ⟨by simp [h1], ?_, ?_⟩
      · simp [h2, List.range'_succ, Blob.addFrame, Blob.init]
      · intro b hb
        rcases List.mem_cons.mp hb with rfl | hb
        · rfl
        · exact h3 b hb

end PredLemmas
section StepDecomp

variable {μ : Type}

lemma step_decomp (s s' : MOT μ) (bbox : List Box) (mask : List μ)
    (h : s.step bbox mask = some s') :
    ∃ s₁ r s₃,
      ({ s with frame_id := s.frame_id + 1 } : MOT μ).pred = some s₁ ∧
      s₁.update bbox (s₁.hungarian bbox) mask = some r ∧
      r.1.delBlobs (delBlobInd bbox (s₁.hungarian bbox)) = some s₃ ∧
      s' = { s₃ with blobs := s₃.blobs ++ r.2,
                     blobs_all := s₃.blobs_all ++ r.2.map Blob.idx,
                     total_blobs := s₃.total_blobs + r.2.length,
                     blolen := (s₃.blobs ++ r.2).length } := by
  simp only [MOT.step, MOT.postAssign, bind, Option.bind_eq_some, pure,
    Option.some.injEq] at h
  rcases h with ⟨s₁, h₁, r, h₂, s₃, h₃, h₄⟩
  exact ⟨s₁, r, s₃, h₁, h₂, h₃, h₄.symm⟩

end StepDecomp
/-- C9. After construction and after every `step()`, the cached track count
`blolen` equals the length of the live track list `blobs` (so the loop bounds
in prediction and the matched-vs-new test in update use the current live
count). -/
theorem C9_blolen_eq_length :
    (∀ (μ : Type) (bbox : List Box) (mask : List μ) (fc : ℚ) (mg : Bool) (mi mt : ℕ)
        (s₀ : MOT μ), MOT.init bbox mask fc mg mi mt = some s₀ →
          s₀.blolen = s₀.blobs.length) ∧
    (∀ (μ : Type) (s s' : MOT μ) (bbox : List Box) (mask : List μ),
        s.step bbox mask = some s' → s'.blolen = s'.blobs.length) := by
  constructor
  · intro μ bbox mask fc mg mi mt s₀ h
    rw [MOT.init, Option.map_eq_some'] at h
    rcases h with ⟨bs, hbs, rfl⟩
    exact ((mkNewBlobs_spec 0 1 bbox mask bs hbs).1).symm
  · intro μ s s' bbox mask h
    rcases step_decomp s s' bbox mask h with ⟨s₁, r, s₃, h₁, h₂, h₃, rfl⟩
    rfl

/-- Witness for C9: the concrete one-track session, after construction and
after a concrete step. -/
theorem C9_blolen_eq_length_witness :
    exS.blolen = exS.blobs.length ∧
      (exS.step [⟨0, 0, 2, 2⟩] [9]).elim False (fun s' => s'.blolen = s'.blobs.length) := by
  constructor
  · exact C9_blolen_eq_length.1 ℕ [⟨0, 0, 2, 2⟩] [7] 100 false 2 50 exS exS_eq_init
  · cases h : exS.step [⟨0, 0, 2, 2⟩] [9] with
    | none =>
      have hs : (exS.step [⟨0, 0, 2, 2⟩] [9]).isSome = true := by with_unfolding_all rfl
      rw [h] at hs
      exact Bool.noConfusion hs
    | some s' => exact C9_blolen_eq_length.2 ℕ exS s' _ _ h
section UpdLemmas

variable {μ : Type}

lemma updLoop_untouched (blolen total frame : ℕ) (bbox : List Box) (blob_ind : List ℕ)
    (mask : List μ) (j : ℕ) :
    ∀ (l : List ℕ) (blobs acc : List (Blob μ)) (res : List (Blob μ) × List (Blob μ)),
      updLoop blolen total frame bbox blob_ind mask l blobs acc = some res →
      (∀ i' ∈ l, ∀ j', blob_ind.get? i' = some j' → j' ≠ j) →
      res.1.get? j = blobs.get? j := by
  intro l
  induction l with
  | nil =>
    intro blobs acc res h _
    rw [updLoop] at h
    cases h
    rfl
  | cons i rest ih =>
    intro blobs acc res h huniq
    rw [updLoop] at h
    cases hbx : bbox.get? i with
    | none => rw [hbx] at h; exact absurd h (by simp)
    | some bx =>
    cases hbi : blob_ind.get? i with
    | none => rw [hbx, hbi] at h; exact absurd h (by simp)
    | some ind =>
    cases hmk : mask.get? i with
    | none => rw [hbx, hbi, hmk] at h; exact absurd h (by simp)
    | some mk =>
    rw [hbx, hbi, hmk] at h
    dsimp only at h
    have hindj : ind ≠ j :=
      huniq i (List.mem_cons_self i rest) ind hbi
    by_cases hlt : ind < blolen
    · rw [if_pos hlt] at h
      cases hbj : blobs.get? ind with
      | none => rw [hbj] at h; exact absurd h (by simp)
      | some b =>
        rw [hbj] at h
        dsimp only at h
        have := ih _ _ _ h (fun i' hi' j' hj' => huniq i' (List.mem_cons_of_mem _ hi') j' hj')
        rw [this, List.get?_set_ne _ _ hindj]
    · rw [if_neg hlt] at h
      exact ih _ _ _ h (fun i' hi' j' hj' => huniq i' (List.mem_cons_of_mem _ hi') j' hj')

lemma updLoop_matched (blolen total frame : ℕ) (bbox : List Box) (blob_ind : List ℕ)
    (mask : List μ) (i j : ℕ) (bx : Box) (mk : μ) (b : Blob μ) :
    ∀ (l : List ℕ) (blobs acc : List (Blob μ)) (res : List (Blob μ) × List (Blob μ)),
      updLoop blolen total frame bbox blob_ind mask l blobs acc = some res →
      l.Nodup → i ∈ l →
      bbox.get? i = some bx → blob_ind.get? i = some j → mask.get? i = some mk →
      j < blolen → blobs.get? j = some b →
      (∀ i' ∈ l, ∀ j', blob_ind.get? i' = some j' → j' = j → i' = i) →
      res.1.get? j = some { b.correct (measVec bx) mk with dead := 0 } := by
  intro l
  induction l with
  | nil => intro _ _ _ _ _ hmem; exact absurd hmem (List.not_mem_nil i)
  | cons i₀ rest ih =>
    intro blobs acc res h hnd hmem hbx hbj hmk hjlt hb huniq
    rcases List.nodup_cons.mp hnd with ⟨hni, hndr⟩
    by_cases hi₀ : i₀ = i
    · subst hi₀
      rw [updLoop, hbx, hbj, hmk] at h
      dsimp only at h
      rw [if_pos hjlt, hb] at h
      dsimp only at h
      have huntouched := updLoop_untouched blolen total frame bbox blob_ind mask j
        rest _ _ _ h ?_
      · rw [huntouched]
        have hjlen : j < blobs.length := by
          rcases List.get?_eq_some.mp hb with ⟨hlen, _⟩
          exact hlen
        exact List.get?_set_eq_of_lt _ hjlen
      · intro i' hi' j' hj'
        exact fun hj'eq => hni ((huniq i' (List.mem_cons_of_mem _ hi') j' hj' hj'eq) ▸ hi')
    · have hmem' : i ∈ rest := by
        rcases List.mem_cons.mp hmem with h' | h'
        · exact absurd h'.symm hi₀
        · exact h'
      rw [updLoop] at h
      cases hbx₀ : bbox.get? i₀ with
      | none => rw [hbx₀] at h; exact absurd h (by simp)
      | some bx₀ =>
      cases hbi₀ : blob_ind.get? i₀ with
      | none => rw [hbx₀, hbi₀] at h; exact absurd h (by simp)
      | some ind₀ =>
      cases hmk₀ : mask.get? i₀ with
      | none => rw [hbx₀, hbi₀, hmk₀] at h; exact absurd h (by simp)
      | some mk₀ =>
      rw [hbx₀, hbi₀, hmk₀] at h
      dsimp only at h
      have hind₀j : ind₀ ≠ j := by
        intro hcon
        exact hi₀ (huniq i₀ (List.mem_cons_self _ _) ind₀ hbi₀ hcon)
      have huniq' : ∀ i' ∈ rest, ∀ j', blob_ind.get? i' = some j' → j' = j → i' = i :=
        fun i' hi' j' hj' hj'' => huniq i' (List.mem_cons_of_mem _ hi') j' hj' hj''
      by_cases hlt : ind₀ < blolen
      · rw [if_pos hlt] at h
        cases hbj₀ : blobs.get? ind₀ with
        | none => rw [hbj₀] at h; exact absurd h (by simp)
        | some b₀ =>
          rw [hbj₀] at h
          dsimp only at h
          have hb' : (blobs.set ind₀
              { b₀.correct (measVec bx₀) mk₀ with dead := 0 }).get? j = some b := by
            rw [List.get?_set_ne _ _ hind₀j, hb]
          exact ih _ _ _ h hndr hmem' hbx hbj hmk hjlt hb' huniq'
      · rw [if_neg hlt] at h
        exact ih _ _ _ h hndr hmem' hbx hbj hmk hjlt hb huniq'

lemma updLoop_map_idx (blolen total frame : ℕ) (bbox : List Box) (blob_ind : List ℕ)
    (mask : List μ) :
    ∀ (l : List ℕ) (blobs acc : List (Blob μ)) (res : List (Blob μ) × List (Blob μ)),
      updLoop blolen total frame bbox blob_ind mask l blobs acc = some res →
      res.1.map Blob.idx = blobs.map Blob.idx := by
  intro l
  induction l with
  | nil =>
    intro blobs acc res h
    rw [updLoop] at h
    cases h
    rfl
  | cons i rest ih =>
    intro blobs acc res h
    rw [updLoop] at h
    cases hbx : bbox.get? i with
    | none => rw [hbx] at h; exact absurd h (by simp)
    | some bx =>
    cases hbi : blob_ind.get? i with
    | none => rw [hbx, hbi] at h; exact absurd h (by simp)
    | some ind =>
    cases hmk : mask.get? i with
    | none => rw [hbx, hbi, hmk] at h; exact absurd h (by simp)
    | some mk =>
    rw [hbx, hbi, hmk] at h
    dsimp only at h
    by_cases hlt : ind < blolen
    · rw [if_pos hlt] at h
      cases hbj : blobs.get? ind with
      | none => rw [hbj] at h; exact absurd h (by simp)
      | some b =>
        rw [hbj] at h
        dsimp only at h
        rw [ih _ _ _ h, List.map_set]
        apply set_get?_self
        rw [List.get?_map, hbj]
        rfl
    · rw [if_neg hlt] at h
      exact ih _ _ _ h

lemma updLoop_new (blolen total frame : ℕ) (bbox : List Box) (blob_ind : List ℕ)
    (mask : List μ) :
    ∀ (l : List ℕ) (blobs acc : List (Blob μ)) (res : List (Blob μ) × List (Blob μ)),
      updLoop blolen total frame bbox blob_ind mask l blobs acc = some res →
      acc.map Blob.idx = List.range' (total + 1) acc.length →
      (∀ b ∈ acc, b.dead = 0) →
      res.2.map Blob.idx = List.range' (total + 1) res.2.length ∧
        ∀ b ∈ res.2, b.dead = 0 := by
  intro l
  induction l with
  | nil =>
    intro blobs acc res h hidx hdead
    rw [updLoop] at h
    cases h
    exact ⟨hidx, hdead⟩
  | cons i rest ih =>
    intro blobs acc res h hidx hdead
    rw [updLoop] at h
    cases hbx : bbox.get? i with
    | none => rw [hbx] at h; exact absurd h (by simp)
    | some bx =>
    cases hbi : blob_ind.get? i with
    | none => rw [hbx, hbi] at h; exact absurd h (by simp)
    | some ind =>
    cases hmk : mask.get? i with
    | none => rw [hbx, hbi, hmk] at h; exact absurd h (by simp)
    | some mk =>
    rw [hbx, hbi, hmk] at h
    dsimp only at h
    by_cases hlt : ind < blolen
    · rw [if_pos hlt] at h
      cases hbj : blobs.get? ind with
      | none => rw [hbj] at h; exact absurd h (by simp)
      | some b =>
        rw [hbj] at h
        dsimp only at h
        exact ih _ _ _ h hidx hdead
    · rw [if_neg hlt] at h
      apply ih _ _ _ h
      · have hline : total + 1 + acc.length = total + acc.length + 1 := by omega
        simp only [List.map_append, hidx, List.length_append, List.length_cons,
          List.length_nil, List.map_cons, List.map_nil]
        rw [List.range'_1_concat, hline]
        rfl
      · intro b hb
        rcases List.mem_append.mp hb with hb | hb
        · exact hdead b hb
        · rcases List.mem_cons.mp hb with rfl | hb
          · rfl
          · exact absurd hb (List.not_mem_nil b)

end UpdLemmas
section DelLemmas

variable {μ : Type} {α β : Type}

lemma map_eraseIdx' (f : α → β) (l : List α) (i : ℕ) :
    (l.eraseIdx i).map f = (l.map f).eraseIdx i := by
  induction l generalizing i with
  | nil => simp [List.eraseIdx]
  | cons a l ih =>
    cases i with
    | zero => rfl
    | succ i => simp [List.eraseIdx, ih]

lemma nodup_not_mem_eraseIdx {l : List α} (hnd : l.Nodup) {i : ℕ} {a : α}
    (h : l.get? i = some a) : a ∉ l.eraseIdx i := by
  intro hmem
  rcases List.get?_of_mem hmem with ⟨q, hq⟩
  rcases Nat.lt_or_ge q i with hqi | hqi
  · rw [get?_eraseIdx_of_lt _ _ _ hqi] at hq
    exact absurd (nodup_get?_inj hnd hq h) (Nat.ne_of_lt hqi)
  · rw [get?_eraseIdx_of_ge _ _ _ hqi] at hq
    exact absurd (nodup_get?_inj hnd hq h) (by omega)

lemma delLoop_preserve :
    ∀ (inds : List ℕ) (blobs out : List (Blob μ)) (p : ℕ) (b : Blob μ),
      inds.Pairwise (· > ·) →
      delLoop blobs inds = some out →
      blobs.get? p = some b → p ∉ inds →
      b ∈ out := by
  intro inds
  induction inds with
  | nil =>
    intro blobs out p b _ h hb _
    rw [delLoop] at h
    cases h
    exact List.get?_mem hb
  | cons i rest ih =>
    intro blobs out p b hdesc h hb hpn
    rcases List.pairwise_cons.mp hdesc with ⟨hgt, hdesc'⟩
    have hpi : p ≠ i := fun hc => hpn (hc ▸ List.mem_cons_self i rest)
    have hpr : p ∉ rest := fun hc => hpn (List.mem_cons_of_mem _ hc)
    rw [delLoop] at h
    cases hbi : blobs.get? i with
    | none => rw [hbi] at h; exact absurd h (by simp)
    | some bi =>
    rw [hbi] at h
    dsimp only at h
    by_cases hth : bi.dead + 1 > MOT.UNDETECTION_THRESHOLD
    · rw [if_pos hth] at h
      rcases Nat.lt_or_ge p i with hplt | hpge
      · exact ih _ _ p b hdesc' h (by rw [get?_eraseIdx_of_lt _ _ _ hplt]; exact hb) hpr
      · have hpgt : i < p := by omega
        have hb' : (blobs.eraseIdx i).get? (p - 1) = some b := by
          rw [get?_eraseIdx_of_ge _ _ _ (by omega)]
          have : p - 1 + 1 = p := by omega
          rw [this]
          exact hb
        have hpr' : p - 1 ∉ rest := by
          intro hc
          have := hgt _ hc
          omega
        exact ih _ _ (p - 1) b hdesc' h hb' hpr'
    · rw [if_neg hth] at h
      exact ih _ _ p b hdesc' h
        (by rw [List.get?_set_ne _ _ (fun hc => hpi hc.symm)]; exact hb) hpr

lemma delLoop_aged :
    ∀ (inds : List ℕ) (blobs out : List (Blob μ)) (p : ℕ) (b : Blob μ),
      inds.Pairwise (· > ·) →
      delLoop blobs inds = some out →
      blobs.get? p = some b → p ∈ inds →
      b.dead + 1 ≤ MOT.UNDETECTION_THRESHOLD →
      ({ b with dead := b.dead + 1 }) ∈ out := by
  intro inds
  induction inds with
  | nil => intro _ _ _ _ _ _ _ hmem; exact absurd hmem (List.not_mem_nil _)
  | cons i rest ih =>
    intro blobs out p b hdesc h hb hmem hth
    rcases List.pairwise_cons.mp hdesc with ⟨hgt, hdesc'⟩
    rw [delLoop] at h
    by_cases hpi : p = i
    · subst hpi
      rw [hb] at h
      dsimp only at h
      rw [if_neg (by omega)] at h
      have hplen : p < blobs.length := by
        rcases List.get?_eq_some.mp hb with ⟨hlen, _⟩
        exact hlen
      have hset : (blobs.set p { b with dead := b.dead + 1 }).get? p =
          some { b with dead := b.dead + 1 } :=
        List.get?_set_eq_of_lt _ hplen
      have hpnr : p ∉ rest := fun hc => by have := hgt _ hc; omega
      exact delLoop_preserve rest _ _ p _ hdesc' h hset hpnr
    · have hmem' : p ∈ rest := by
        rcases List.mem_cons.mp hmem with h' | h'
        · exact absurd h' hpi
        · exact h'
      have hplt : p < i := hgt _ hmem'
      cases hbi : blobs.get? i with
      | none => rw [hbi] at h; exact absurd h (by simp)
      | some bi =>
      rw [hbi] at h
      dsimp only at h
      by_cases hth' : bi.dead + 1 > MOT.UNDETECTION_THRESHOLD
      · rw [if_pos hth'] at h
        exact ih _ _ p b hdesc' h (by rw [get?_eraseIdx_of_lt _ _ _ hplt]; exact hb) hmem' hth
      · rw [if_neg hth'] at h
        exact ih _ _ p b hdesc' h
          (by rw [List.get?_set_ne _ _ (by omega)]; exact hb) hmem' hth

lemma delLoop_source :
    ∀ (inds : List ℕ) (blobs out : List (Blob μ)),
      delLoop blobs inds = some out →
      ∀ c ∈ out, ∃ b₁ ∈ blobs, c.idx = b₁.idx ∧ c.masks = b₁.masks := by
  intro inds
  induction inds with
  | nil =>
    intro blobs out h c hc
    rw [delLoop] at h
    cases h
    exact ⟨c, hc, rfl, rfl⟩
  | cons i rest ih =>
    intro blobs out h c hc
    rw [delLoop] at h
    cases hbi : blobs.get? i with
    | none => rw [hbi] at h; exact absurd h (by simp)
    | some bi =>
    rw [hbi] at h
    dsimp only at h
    by_cases hth : bi.dead + 1 > MOT.UNDETECTION_THRESHOLD
    · rw [if_pos hth] at h
      rcases ih _ _ h c hc with ⟨b₁, hb₁, hidx, hmasks⟩
      exact ⟨b₁, List.mem_of_mem_eraseIdx hb₁, hidx, hmasks⟩
    · rw [if_neg hth] at h
      rcases ih _ _ h c hc with ⟨b₁, hb₁, hidx, hmasks⟩
      rcases List.mem_or_eq_of_mem_set hb₁ with hb₁' | rfl
      · exact ⟨b₁, hb₁', hidx, hmasks⟩
      · exact ⟨bi, List.get?_mem hbi, hidx, hmasks⟩

lemma delLoop_removed :
    ∀ (inds : List ℕ) (blobs out : List (Blob μ)) (p : ℕ) (b : Blob μ),
      inds.Pairwise (· > ·) →
      (blobs.map Blob.idx).Nodup →
      delLoop blobs inds = some out →
      blobs.get? p = some b → p ∈ inds →
      b.dead + 1 > MOT.UNDETECTION_THRESHOLD →
      ∀ c ∈ out, c.idx ≠ b.idx := by
  intro inds
  induction inds with
  | nil => intro _ _ _ _ _ _ _ _ hmem; exact absurd hmem (List.not_mem_nil _)
  | cons i rest ih =>
    intro blobs out p b hdesc hnd h hb hmem hth c hc
    rcases List.pairwise_cons.mp hdesc with ⟨hgt, hdesc'⟩
    rw [delLoop] at h
    by_cases hpi : p = i
    · subst hpi
      rw [hb] at h
      dsimp only at h
      rw [if_pos hth] at h
      rcases delLoop_source rest _ _ h c hc with ⟨b₁, hb₁, hidx, _⟩
      have hbidx : b.idx ∉ (blobs.eraseIdx p).map Blob.idx := by
        rw [map_eraseIdx']
        exact nodup_not_mem_eraseIdx hnd (by rw [List.get?_map, hb]; rfl)
      intro hc'
      have hb₁idx : b₁.idx = b.idx := by rw [← hidx, hc']
      exact hbidx (hb₁idx ▸ List.mem_map_of_mem Blob.idx hb₁)
    · have hmem' : p ∈ rest := by
        rcases List.mem_cons.mp hmem with h' | h'
        · exact absurd h' hpi
        · exact h'
      have hplt : p < i := hgt _ hmem'
      cases hbi : blobs.get? i with
      | none => rw [hbi] at h; exact absurd h (by simp)
      | some bi =>
      rw [hbi] at h
      dsimp only at h
      by_cases hth' : bi.dead + 1 > MOT.UNDETECTION_THRESHOLD
      · rw [if_pos hth'] at h
        apply ih _ _ p b hdesc' ?_ h ?_ hmem' hth c hc
        · rw [map_eraseIdx']
          exact hnd.eraseIdx i
        · rw [get?_eraseIdx_of_lt _ _ _ hplt]
          exact hb
      · rw [if_neg hth'] at h
        apply ih _ _ p b hdesc' ?_ h ?_ hmem' hth c hc
        · rw [List.map_set]
          rw [set_get?_self]
          · exact hnd
          · rw [List.get?_map, hbi]
            rfl
        · rw [List.get?_set_ne _ _ (by omega)]
          exact hb

end DelLemmas
section SortHungarian

variable {μ : Type}

lemma sortDesc_perm (l : List ℕ) : (sortDesc l).Perm l :=
  List.perm_insertionSort _ l

lemma sortDesc_sorted (l : List ℕ) : (sortDesc l).Pairwise (· ≥ ·) :=
  List.sorted_insertionSort _ l

lemma sortDesc_pairwise_gt {l : List ℕ} (hnd : l.Nodup) :
    (sortDesc l).Pairwise (· > ·) := by
  have hnd' : (sortDesc l).Nodup := (sortDesc_perm l).nodup_iff.mpr hnd
  have hand := (sortDesc_sorted l).and hnd'
  exact hand.imp (fun hx => by omega)

lemma hungarian_nodup (s : MOT μ) (bbox : List Box) : (s.hungarian bbox).Nodup :=
  (lsa_perm _ _).nodup_iff.mpr (List.nodup_range _)

lemma hungarian_mem_lt (s : MOT μ) (bbox : List Box) {j : ℕ}
    (h : j ∈ s.hungarian bbox) : j < bbox.length + s.blobs.length :=
  List.mem_range.mp ((lsa_perm _ _).mem_iff.mp h)

lemma delBlobInd_nodup {bbox : List Box} {blob_ind : List ℕ} (hnd : blob_ind.Nodup) :
    (delBlobInd bbox blob_ind).Nodup :=
  ((hnd.sublist (List.drop_sublist _ _)).sublist (List.filter_sublist _))

lemma matched_not_mem_delBlobInd {bbox : List Box} {blob_ind : List ℕ}
    (hnd : blob_ind.Nodup) {i j : ℕ} (hi : i < bbox.length)
    (hj : blob_ind.get? i = some j) : j ∉ delBlobInd bbox blob_ind := by
  intro hmem
  rcases List.mem_filter.mp hmem with ⟨hdrop, _⟩
  rcases List.get?_of_mem hdrop with ⟨q, hq⟩
  rw [List.get?_drop] at hq
  have := nodup_get?_inj hnd hj hq
  omega

end SortHungarian
section ClaimC2

variable {μ : Type}

lemma stepPred_map_idx (s : MOT μ) :
    s.stepPred.blobs.map Blob.idx = s.blobs.map Blob.idx := by
  simp only [MOT.stepPred, List.map_map]
  rfl

/-- C2. On every `step()`, every detection matched to an existing track
corrects that track with the measurement `cor2cen(bbox[i])` and the mask
`mask[i]` and resets its `dead` counter to exactly 0; and such a matched track
is never deleted in that same frame (it is still live after the step). -/
theorem C2_matched_corrected_and_kept (s s' : MOT μ) (bbox : List Box) (mask : List μ)
    (hwf : s.blolen = s.blobs.length)
    (h : s.step bbox mask = some s')
    (i j : ℕ) (bx : Box) (mk : μ)
    (hbx : bbox.get? i = some bx) (hmk : mask.get? i = some mk)
    (hj : (s.stepPred.hungarian bbox).get? i = some j) (hjlt : j < s.blolen)
    (b₀ : Blob μ) (hb₀ : s.stepPred.blobs.get? j = some b₀) :
    ∃ b' ∈ s'.blobs, b' = { b₀.correct (measVec bx) mk with dead := 0 } := by
  rcases step_decomp s s' bbox mask h with ⟨s₁, r, s₃, h₁, h₂, h₃, rfl⟩
  rw [stepPred_pred s hwf] at h₁
  have hs₁ : s₁ = s.stepPred := (Option.some.inj h₁).symm
  subst hs₁
  rw [MOT.update, Option.map_eq_some'] at h₂
  rcases h₂ with ⟨res, hres, hr⟩
  have hnd : (s.stepPred.hungarian bbox).Nodup := hungarian_nodup _ _
  have hi : i < bbox.length := by
    rcases List.get?_eq_some.mp hbx with ⟨hlen, _⟩
    exact hlen
  have hmatched := updLoop_matched s.stepPred.blolen s.stepPred.total_blobs
    s.stepPred.frame_id bbox (s.stepPred.hungarian bbox) mask i j bx mk b₀
    (List.range bbox.length) s.stepPred.blobs [] res hres (List.nodup_range _)
    (List.mem_range.mpr hi) hbx hj hmk hjlt hb₀
    (fun i' _ j' hj' hj'j => nodup_get?_inj hnd hj' (hj'j ▸ hj))
  rw [MOT.delBlobs, Option.map_eq_some'] at h₃
  rcases h₃ with ⟨out, hout, hs₃⟩
  have hindnd : (delBlobInd bbox (s.stepPred.hungarian bbox)).Nodup := delBlobInd_nodup hnd
  have hjnot : j ∉ delBlobInd bbox (s.stepPred.hungarian bbox) :=
    matched_not_mem_delBlobInd hnd hi hj
  have hjnot' : j ∉ sortDesc (delBlobInd bbox (s.stepPred.hungarian bbox)) :=
    fun hc => hjnot ((sortDesc_perm _).mem_iff.mp hc)
  have hr1 : r.1.blobs = res.1 := by rw [← hr]
  have hmem : ({ b₀.correct (measVec bx) mk with dead := 0 }) ∈ out := by
    apply delLoop_preserve _ r.1.blobs out j _ (sortDesc_pairwise_gt hindnd) hout _ hjnot'
    rw [hr1, hmatched]
  refine ⟨{ b₀.correct (measVec bx) mk with dead := 0 }, ?_, rfl⟩
  have hblobs : s₃.blobs = out := by rw [← hs₃]
  simp only [hblobs]
  exact List.mem_append_left _ hmem

/-- Witness for C2: a session with one track at `(0,0,2,2)` receiving a
detection at the same place; the assignment matches detection 0 to track 0. -/
theorem C2_matched_corrected_and_kept_witness :
    (exS.step [⟨0, 0, 2, 2⟩] [9]).elim False (fun s' =>
      ∃ b' ∈ s'.blobs,
        b' = { (Blob.predictF 1 exBlob).correct (measVec ⟨0, 0, 2, 2⟩) 9 with dead := 0 }) := by
  cases h : exS.step [⟨0, 0, 2, 2⟩] [9] with
  | none =>
    have hs : (exS.step [⟨0, 0, 2, 2⟩] [9]).isSome = true := by with_unfolding_all rfl
    rw [h] at hs
    exact Bool.noConfusion hs
  | some s' =>
    exact C2_matched_corrected_and_kept exS s' [⟨0, 0, 2, 2⟩] [9] rfl h 0 0 ⟨0, 0, 2, 2⟩ 9
      rfl rfl (by with_unfolding_all rfl) (by decide) (Blob.predictF 1 exBlob) rfl

end ClaimC2
/-- C1. The claim is violated by the code: on a `step()` with zero detections
every live track goes unmatched, yet no miss counter is incremented, because
`__delBlobInd` tests `blob_ind[i] < boxlen` (the number of detections, here 0)
where the enclosing logic requires a comparison against the number of live
tracks; the deletion-candidate list is therefore empty and the unmatched track
keeps `dead = 0` instead of being aged to 1. The remaining parts of the claim
(no new tracks created on an empty frame) do hold: the track list and the
total count are unchanged. -/
theorem C1_zero_detection_step_does_not_age :
    (exS.step [] []).map
        (fun s' => (s'.blobs.map Blob.dead, s'.blobs.map Blob.idx, s'.total_blobs))
      = some ([0], [1], 1) ∧ exS.blobs.map Blob.dead = [0] := by
  constructor
  · with_unfolding_all rfl
  · rfl

/-- Counterexample to C7 as stated: after a `step()` with zero detections the
live track was only predicted, and its `masks` length is still 1 (one mask
appended at creation), not 2: `predict` does not append a mask. -/
theorem C7_masks_counterexample :
    (exS.step [] []).map (fun s' => s'.blobs.map fun b => b.masks.length) = some [1] ∧
      exS.blobs.map (fun b => b.masks.length) = [1] := by
  constructor
  · with_unfolding_all rfl
  · rfl

section ClaimC7

variable {μ : Type}

/-- C7 (amended). A mask is appended to a track exactly on the frames where
the track is matched (corrected): after a `step()`, a live track matched to
detection `i` carries `masks ++ [mask[i]]`, and a live track matched to no
detection carries its `masks` unchanged. -/
theorem C7_masks_growth (s s' : MOT μ) (bbox : List Box) (mask : List μ)
    (hwf : s.blolen = s.blobs.length)
    (hidx : (s.blobs.map Blob.idx).Nodup)
    (hle : ∀ b ∈ s.blobs, b.idx ≤ s.total_blobs)
    (h : s.step bbox mask = some s')
    (j : ℕ) (b₀ : Blob μ) (hb₀ : s.stepPred.blobs.get? j = some b₀) (hjlt : j < s.blolen) :
    (∀ i bx mk, bbox.get? i = some bx → mask.get? i = some mk →
        (s.stepPred.hungarian bbox).get? i = some j →
        ∀ b' ∈ s'.blobs, b'.idx = b₀.idx → b'.masks = b₀.masks ++ [mk]) ∧
    ((∀ i, i < bbox.length → (s.stepPred.hungarian bbox).get? i ≠ some j) →
        ∀ b' ∈ s'.blobs, b'.idx = b₀.idx → b'.masks = b₀.masks) := by
  rcases step_decomp s s' bbox mask h with ⟨s₁, r, s₃, h₁, h₂, h₃, rfl⟩
  rw [stepPred_pred s hwf] at h₁
  have hs₁ : s₁ = s.stepPred := (Option.some.inj h₁).symm
  subst hs₁
  rw [MOT.update, Option.map_eq_some'] at h₂
  rcases h₂ with ⟨res, hres, hr⟩
  rw [MOT.delBlobs, Option.map_eq_some'] at h₃
  rcases h₃ with ⟨out, hout, hs₃⟩
  have hr1 : r.1.blobs = res.1 := by rw [← hr]
  have hr2 : r.2 = res.2 := by rw [← hr]
  have hblobs : s₃.blobs = out := by rw [← hs₃]
  have hnd : (s.stepPred.hungarian bbox).Nodup := hungarian_nodup _ _
  have hidxmap : res.1.map Blob.idx = s.blobs.map Blob.idx := by
    rw [updLoop_map_idx _ _ _ _ _ _ _ _ _ _ hres, stepPred_map_idx]
  have hidx' : (res.1.map Blob.idx).Nodup := by rw [hidxmap]; exact hidx
  have hb₀le : b₀.idx ≤ s.total_blobs := by
    have hb₀mem : b₀ ∈ s.stepPred.blobs := List.get?_mem hb₀
    have : b₀.idx ∈ s.blobs.map Blob.idx := by
      rw [← stepPred_map_idx]
      exact List.mem_map_of_mem _ hb₀mem
    rcases List.mem_map.mp this with ⟨a, ha, haidx⟩
    exact haidx ▸ hle a ha
  have hnew := updLoop_new s.stepPred.blolen s.stepPred.total_blobs
    s.stepPred.frame_id bbox (s.stepPred.hungarian bbox) mask
    (List.range bbox.length) s.stepPred.blobs [] res hres rfl (by intro b hb; cases hb)
  have hnewgt : ∀ b' ∈ r.2, s.total_blobs < b'.idx := by
    intro b' hb'
    have : b'.idx ∈ res.2.map Blob.idx := List.mem_map_of_mem _ (hr2 ▸ hb')
    rw [hnew.1] at this
    have hrange := List.mem_range'_1.mp this
    have htot : s.stepPred.total_blobs = s.total_blobs := rfl
    omega
  -- a common finisher: given the value of res.1 at position j, every live
  -- survivor with the same id carries that value's masks
  have hfinish : ∀ bj : Blob μ, res.1.get? j = some bj → bj.idx = b₀.idx →
      ∀ b' ∈ s₃.blobs ++ r.2, b'.idx = b₀.idx → b'.masks = bj.masks := by
    intro bj hbj hbjidx b' hb' hb'idx
    rcases List.mem_append.mp hb' with hb' | hb'
    · rw [hblobs] at hb'
      rcases delLoop_source _ _ _ hout b' hb' with ⟨b₁, hb₁, hb₁idx, hb₁masks⟩
      rw [hr1] at hb₁
      have hb₁eq : b₁ = bj := by
        apply List.inj_on_of_nodup_map hidx' hb₁ (List.get?_mem hbj)
        rw [← hb₁idx, hb'idx, hbjidx]
      rw [hb₁masks, hb₁eq]
    · exfalso
      have := hnewgt b' hb'
      omega
  constructor
  · intro i bx mk hbx hmk hj b' hb' hb'idx
    have hi : i < bbox.length := by
      rcases List.get?_eq_some.mp hbx with ⟨hlen, _⟩
      exact hlen
    have hmatched := updLoop_matched s.stepPred.blolen s.stepPred.total_blobs
      s.stepPred.frame_id bbox (s.stepPred.hungarian bbox) mask i j bx mk b₀
      (List.range bbox.length) s.stepPred.blobs [] res hres (List.nodup_range _)
      (List.mem_range.mpr hi) hbx hj hmk hjlt hb₀
      (fun i' _ j' hj' hj'j => nodup_get?_inj hnd hj' (hj'j ▸ hj))
    exact hfinish _ hmatched rfl b' hb' hb'idx
  · intro hnomatch b' hb' hb'idx
    have huntouched := updLoop_untouched s.stepPred.blolen s.stepPred.total_blobs
      s.stepPred.frame_id bbox (s.stepPred.hungarian bbox) mask j
      (List.range bbox.length) s.stepPred.blobs [] res hres ?_
    · rw [hb₀] at huntouched
      exact hfinish b₀ huntouched rfl b' hb' hb'idx
    · intro i' hi' j' hj' hj'j
      exact hnomatch i' (List.mem_range.mp hi') (hj'j ▸ hj')

/-- Witness for the amended C7: one track, detection matched at the same
place: the surviving track carries exactly one more mask. -/
theorem C7_masks_growth_witness :
    (exS.step [⟨0, 0, 2, 2⟩] [9]).elim False (fun s' =>
      ∀ b' ∈ s'.blobs, b'.idx = (Blob.predictF 1 exBlob).idx →
        b'.masks = (Blob.predictF 1 exBlob).masks ++ [9]) := by
  cases h : exS.step [⟨0, 0, 2, 2⟩] [9] with
  | none =>
    have hs : (exS.step [⟨0, 0, 2, 2⟩] [9]).isSome = true := by with_unfolding_all rfl
    rw [h] at hs
    exact Bool.noConfusion hs
  | some s' =>
    exact (C7_masks_growth exS s' [⟨0, 0, 2, 2⟩] [9] rfl (by decide) (by decide) h 0
        (Blob.predictF 1 exBlob) rfl (by decide)).1 0 ⟨0, 0, 2, 2⟩ 9 rfl rfl
      (by with_unfolding_all rfl)

end ClaimC7
section ClaimC3C8

variable {μ : Type}

/-- C3. In the deletion pass of a `step()`, a track whose incremented miss
counter is at most `UNDETECTION_THRESHOLD` (in particular, exactly at the
threshold) survives in the live set; once the incremented counter exceeds the
threshold the track is removed from the live set (no live track carries its
id any more) while its id remains recorded in the all-tracks set
`blobs_all`. -/
theorem C3_threshold_removal (s s' : MOT μ) (ind_del : List ℕ)
    (hnd : ind_del.Nodup)
    (hidx : (s.blobs.map Blob.idx).Nodup)
    (hall : ∀ b ∈ s.blobs, b.idx ∈ s.blobs_all)
    (h : s.delBlobs ind_del = some s')
    (p : ℕ) (b : Blob μ) (hp : p ∈ ind_del) (hb : s.blobs.get? p = some b) :
    (b.dead + 1 ≤ MOT.UNDETECTION_THRESHOLD → ({ b with dead := b.dead + 1 }) ∈ s'.blobs) ∧
    (b.dead + 1 > MOT.UNDETECTION_THRESHOLD →
      (∀ c ∈ s'.blobs, c.idx ≠ b.idx) ∧ b.idx ∈ s'.blobs_all) := by
  rw [MOT.delBlobs, Option.map_eq_some'] at h
  rcases h with ⟨out, hout, hs'⟩
  have hblobs : s'.blobs = out := by rw [← hs']
  have hall' : s'.blobs_all = s.blobs_all := by rw [← hs']
  have hdesc : (sortDesc ind_del).Pairwise (· > ·) := sortDesc_pairwise_gt hnd
  have hp' : p ∈ sortDesc ind_del := (sortDesc_perm _).mem_iff.mpr hp
  constructor
  · intro hth
    rw [hblobs]
    exact delLoop_aged _ _ _ p b hdesc hout hb hp' hth
  · intro hth
    constructor
    · intro c hc
      rw [hblobs] at hc
      exact delLoop_removed _ _ _ p b hdesc hidx hout hb hp' hth c hc
    · rw [hall']
      exact hall b (List.get?_mem hb)

/-- Witness for C3 at a track whose `dead` counter is exactly at the
threshold before the pass: aging it to 3 exceeds the threshold 2, so it is
removed but its id 1 stays in `blobs_all`. -/
theorem C3_threshold_removal_witness :
    (exS2.delBlobs [0]).elim False (fun s' =>
      ((mkB 1 2).dead + 1 ≤ MOT.UNDETECTION_THRESHOLD →
        ({ mkB 1 2 with dead := (mkB 1 2).dead + 1 }) ∈ s'.blobs) ∧
      ((mkB 1 2).dead + 1 > MOT.UNDETECTION_THRESHOLD →
        (∀ c ∈ s'.blobs, c.idx ≠ (mkB 1 2).idx) ∧ (mkB 1 2).idx ∈ s'.blobs_all)) := by
  cases h : exS2.delBlobs [0] with
  | none =>
    have hs : (exS2.delBlobs [0]).isSome = true := by with_unfolding_all rfl
    rw [h] at hs
    exact Bool.noConfusion hs
  | some s' =>
    exact C3_threshold_removal exS2 s' [0] (by decide) (by decide)
      (by intro b hb; rcases List.mem_singleton.mp hb with rfl; decide) h 0 (mkB 1 2)
      (by decide) rfl

/-- C8. The deletion pass of a `step()` processes its index list in strictly
descending order (the processed list is a descending sort of the deletion
candidates), so index invalidation cannot occur: every live-list position not
named in the candidate list survives untouched, a named position whose
incremented counter stays within the threshold survives (aged by one), and a
named position whose incremented counter exceeds the threshold is removed —
and no other track is removed. -/
theorem C8_descending_deletion (s s' : MOT μ) (ind_del : List ℕ)
    (hnd : ind_del.Nodup)
    (hidx : (s.blobs.map Blob.idx).Nodup)
    (h : s.delBlobs ind_del = some s') :
    (sortDesc ind_del).Pairwise (· > ·) ∧ (sortDesc ind_del).Perm ind_del ∧
    ∀ p b, s.blobs.get? p = some b →
      (p ∉ ind_del → b ∈ s'.blobs) ∧
      (p ∈ ind_del →
        (b.dead + 1 ≤ MOT.UNDETECTION_THRESHOLD →
          ({ b with dead := b.dead + 1 }) ∈ s'.blobs) ∧
        (b.dead + 1 > MOT.UNDETECTION_THRESHOLD → ∀ c ∈ s'.blobs, c.idx ≠ b.idx)) := by
  rw [MOT.delBlobs, Option.map_eq_some'] at h
  rcases h with ⟨out, hout, hs'⟩
  have hblobs : s'.blobs = out := by rw [← hs']
  have hdesc : (sortDesc ind_del).Pairwise (· > ·) := sortDesc_pairwise_gt hnd
  refine ⟨hdesc, sortDesc_perm _, ?_⟩
  intro p b hb
  constructor
  · intro hpn
    rw [hblobs]
    exact delLoop_preserve _ _ _ p b hdesc hout hb
      (fun hc => hpn ((sortDesc_perm _).mem_iff.mp hc))
  · intro hp
    have hp' : p ∈ sortDesc ind_del := (sortDesc_perm _).mem_iff.mpr hp
    constructor
    · intro hth
      rw [hblobs]
      exact delLoop_aged _ _ _ p b hdesc hout hb hp' hth
    · intro hth c hc
      rw [hblobs] at hc
      exact delLoop_removed _ _ _ p b hdesc hidx hout hb hp' hth c hc

/-- Witness for C8: three tracks with counters 2, 0, 2 and deletion
candidates at positions 0 and 2 (sorted descending to `[2, 0]`): the outer
two are removed, the middle one survives untouched. -/
theorem C8_descending_deletion_witness :
    (exS8.delBlobs [0, 2]).elim False (fun s' =>
      (sortDesc [0, 2]).Pairwise (· > ·) ∧ (sortDesc [0, 2]).Perm [0, 2] ∧
      ∀ p b, exS8.blobs.get? p = some b →
        (p ∉ [0, 2] → b ∈ s'.blobs) ∧
        (p ∈ [0, 2] →
          (b.dead + 1 ≤ MOT.UNDETECTION_THRESHOLD →
            ({ b with dead := b.dead + 1 }) ∈ s'.blobs) ∧
          (b.dead + 1 > MOT.UNDETECTION_THRESHOLD → ∀ c ∈ s'.blobs, c.idx ≠ b.idx))) := by
  cases h : exS8.delBlobs [0, 2] with
  | none =>
    have hs : (exS8.delBlobs [0, 2]).isSome = true := by with_unfolding_all rfl
    rw [h] at hs
    exact Bool.noConfusion hs
  | some s' =>
    exact C8_descending_deletion exS8 s' [0, 2] (by decide) (by decide) h

end ClaimC3C8
/-- C4. Track ids are unique for the lifetime of the session, assigned
monotonically starting from 1, and never reused: construction establishes the
id invariant (the all-track log is exactly `1, …, total_blobs` and live ids
are drawn from it), and every `step()` preserves it, only ever appending to
the log ids that strictly exceed every previously issued id. -/
theorem C4_ids_unique_monotone :
    (∀ (μ : Type) (bbox : List Box) (mask : List μ) (fc : ℚ) (mg : Bool) (mi mt : ℕ)
        (s₀ : MOT μ), MOT.init bbox mask fc mg mi mt = some s₀ → idInv s₀) ∧
    (∀ (μ : Type) (s s' : MOT μ) (bbox : List Box) (mask : List μ),
        s.blolen = s.blobs.length → idInv s → s.step bbox mask = some s' →
        idInv s' ∧ s'.blobs_all.Nodup ∧
          ∃ t, s'.blobs_all = s.blobs_all ++ t ∧ ∀ a ∈ s.blobs_all, ∀ b ∈ t, a < b) := by
  constructor
  · intro μ bbox mask fc mg mi mt s₀ h
    rw [MOT.init, Option.map_eq_some'] at h
    rcases h with ⟨bs, hbs, rfl⟩
    rcases mkNewBlobs_spec 0 1 bbox mask bs hbs with ⟨hlen, hids, _⟩
    constructor
    · exact hids
    · intro b hb
      exact List.mem_map_of_mem _ hb
  · intro μ s s' bbox mask hwf hinv h
    rcases hinv with ⟨hall, hlive⟩
    rcases step_decomp s s' bbox mask h with ⟨s₁, r, s₃, h₁, h₂, h₃, rfl⟩
    rw [stepPred_pred s hwf] at h₁
    have hs₁ : s₁ = s.stepPred := (Option.some.inj h₁).symm
    subst hs₁
    rw [MOT.update, Option.map_eq_some'] at h₂
    rcases h₂ with ⟨res, hres, hr⟩
    rw [MOT.delBlobs, Option.map_eq_some'] at h₃
    rcases h₃ with ⟨out, hout, hs₃⟩
    have hr1 : r.1.blobs = res.1 := by rw [← hr]
    have hr2 : r.2 = res.2 := by rw [← hr]
    have hs₃blobs : s₃.blobs = out := by rw [← hs₃]
    have hs₃all : s₃.blobs_all = s.blobs_all := by rw [← hs₃, ← hr]; rfl
    have hs₃tot : s₃.total_blobs = s.total_blobs := by rw [← hs₃, ← hr]; rfl
    have hnew := updLoop_new s.stepPred.blolen s.stepPred.total_blobs
      s.stepPred.frame_id bbox (s.stepPred.hungarian bbox) mask
      (List.range bbox.length) s.stepPred.blobs [] res hres rfl
      (by intro b hb; cases hb)
    have htot : s.stepPred.total_blobs = s.total_blobs := rfl
    have hidsnew : r.2.map Blob.idx = List.range' (s.total_blobs + 1) (r.2.length) := by
      rw [hr2, hnew.1, htot]
    have hout_src : ∀ b ∈ out, b.idx ∈ s.blobs_all := by
      intro b hb
      rcases delLoop_source _ _ _ hout b hb with ⟨b₁, hb₁, hidxeq, _⟩
      rw [hr1] at hb₁
      have : b₁.idx ∈ res.1.map Blob.idx := List.mem_map_of_mem _ hb₁
      rw [updLoop_map_idx _ _ _ _ _ _ _ _ _ _ hres, stepPred_map_idx] at this
      rcases List.mem_map.mp this with ⟨a, ha, haidx⟩
      rw [hidxeq, ← haidx]
      exact hlive a ha
    have hall' : s₃.blobs_all ++ r.2.map Blob.idx =
        List.range' 1 (s₃.total_blobs + r.2.length) := by
      have h2 := List.range'_append_1 1 s.total_blobs r.2.length
      rw [show r.2.length + s.total_blobs = s.total_blobs + r.2.length from by omega] at h2
      rw [hs₃all, hs₃tot, hall, hidsnew]
      rw [show s.total_blobs + 1 = 1 + s.total_blobs from by omega]
      exact h2
    refine ⟨⟨hall', ?_⟩, ?_, ?_⟩
    · intro b hb
      rcases List.mem_append.mp hb with hb | hb
      · rw [hs₃blobs] at hb
        show b.idx ∈ s₃.blobs_all ++ r.2.map Blob.idx
        rw [hs₃all]
        exact List.mem_append_left _ (hout_src b hb)
      · exact List.mem_append_right _ (List.mem_map_of_mem _ hb)
    · show (s₃.blobs_all ++ r.2.map Blob.idx).Nodup
      rw [hall']
      exact List.nodup_range' _ _
    · refine ⟨r.2.map Blob.idx, by rw [hs₃all], ?_⟩
      intro a ha b hb
      rw [hall] at ha
      rw [hidsnew] at hb
      have h1 := List.mem_range'_1.mp ha
      have h2 := List.mem_range'_1.mp hb
      omega

/-- Witness for C4: construction of the one-track session, then a step with a
far-away detection which allocates the fresh id 2 (greater than every id in
the log `[1]`). -/
theorem C4_ids_unique_monotone_witness :
    idInv exS ∧
      (exS.step [⟨50, 50, 52, 52⟩] [9]).elim False (fun s' =>
        idInv s' ∧ s'.blobs_all.Nodup ∧
          ∃ t, s'.blobs_all = exS.blobs_all ++ t ∧
            ∀ a ∈ exS.blobs_all, ∀ b ∈ t, a < b) := by
  constructor
  · exact C4_ids_unique_monotone.1 ℕ [⟨0, 0, 2, 2⟩] [7] 100 false 2 50 exS exS_eq_init
  · cases h : exS.step [⟨50, 50, 52, 52⟩] [9] with
    | none =>
      have hs : (exS.step [⟨50, 50, 52, 52⟩] [9]).isSome = true := by with_unfolding_all rfl
      rw [h] at hs
      exact Bool.noConfusion hs
    | some s' =>
      exact C4_ids_unique_monotone.2 ℕ exS s' [⟨50, 50, 52, 52⟩] [9] rfl
        ⟨rfl, by decide⟩ h

section ClaimC10

variable {μ : Type}

/-- C10. A track created during a `step()` (from a detection unmatched to any
existing track) is never deleted in that same step: deletions are applied
before the newborn tracks are appended, so after the step every track with a
freshly issued id (exceeding the old `total_blobs`) is live with
`undetected_count` equal to 0 — and every freshly issued id up to the new
`total_blobs` is present among the live tracks. -/
theorem C10_newborn_survives (s s' : MOT μ) (bbox : List Box) (mask : List μ)
    (hwf : s.blolen = s.blobs.length)
    (hle : ∀ b ∈ s.blobs, b.idx ≤ s.total_blobs)
    (h : s.step bbox mask = some s') :
    (∀ b ∈ s'.blobs, s.total_blobs < b.idx → b.dead = 0) ∧
    (∀ k, s.total_blobs < k → k ≤ s'.total_blobs →
      ∃ b, b ∈ s'.blobs ∧ b.idx = k ∧ b.dead = 0) := by
  rcases step_decomp s s' bbox mask h with ⟨s₁, r, s₃, h₁, h₂, h₃, rfl⟩
  rw [stepPred_pred s hwf] at h₁
  have hs₁ : s₁ = s.stepPred := (Option.some.inj h₁).symm
  subst hs₁
  rw [MOT.update, Option.map_eq_some'] at h₂
  rcases h₂ with ⟨res, hres, hr⟩
  rw [MOT.delBlobs, Option.map_eq_some'] at h₃
  rcases h₃ with ⟨out, hout, hs₃⟩
  have hr1 : r.1.blobs = res.1 := by rw [← hr]
  have hr2 : r.2 = res.2 := by rw [← hr]
  have hs₃blobs : s₃.blobs = out := by rw [← hs₃]
  have hs₃tot : s₃.total_blobs = s.total_blobs := by rw [← hs₃, ← hr]; rfl
  have htot : s.stepPred.total_blobs = s.total_blobs := rfl
  have hnew := updLoop_new s.stepPred.blolen s.stepPred.total_blobs
    s.stepPred.frame_id bbox (s.stepPred.hungarian bbox) mask
    (List.range bbox.length) s.stepPred.blobs [] res hres rfl
    (by intro b hb; cases hb)
  have hidsnew : r.2.map Blob.idx = List.range' (s.total_blobs + 1) (r.2.length) := by
    rw [hr2, hnew.1, htot]
  constructor
  · intro b hb hgt
    rcases List.mem_append.mp hb with hb | hb
    · exfalso
      rw [hs₃blobs] at hb
      rcases delLoop_source _ _ _ hout b hb with ⟨b₁, hb₁, hidxeq, _⟩
      rw [hr1] at hb₁
      have : b₁.idx ∈ res.1.map Blob.idx := List.mem_map_of_mem _ hb₁
      rw [updLoop_map_idx _ _ _ _ _ _ _ _ _ _ hres, stepPred_map_idx] at this
      rcases List.mem_map.mp this with ⟨a, ha, haidx⟩
      have := hle a ha
      omega
    · exact hnew.2 b (hr2 ▸ hb)
  · intro k hk1 hk2
    have hk2a : k ≤ s₃.total_blobs + r.2.length := hk2
    have hk2' : k ≤ s.total_blobs + r.2.length := by rw [hs₃tot] at hk2a; exact hk2a
    have hkmem : k ∈ r.2.map Blob.idx := by
      rw [hidsnew]
      exact List.mem_range'_1.mpr (by omega)
    rcases List.mem_map.mp hkmem with ⟨b, hb, hbidx⟩
    exact ⟨b, List.mem_append_right _ hb, hbidx, hnew.2 b (hr2 ▸ hb)⟩

/-- Witness for C10: the far-away detection creates track 2, which is live
after its creation step with a zero miss counter. -/
theorem C10_newborn_survives_witness :
    (exS.step [⟨50, 50, 52, 52⟩] [9]).elim False (fun s' =>
      (∀ b ∈ s'.blobs, exS.total_blobs < b.idx → b.dead = 0) ∧
      (∀ k, exS.total_blobs < k → k ≤ s'.total_blobs →
        ∃ b, b ∈ s'.blobs ∧ b.idx = k ∧ b.dead = 0)) := by
  cases h : exS.step [⟨50, 50, 52, 52⟩] [9] with
  | none =>
    have hs : (exS.step [⟨50, 50, 52, 52⟩] [9]).isSome = true := by with_unfolding_all rfl
    rw [h] at hs
    exact Bool.noConfusion hs
  | some s' =>
    exact C10_newborn_survives exS s' [⟨50, 50, 52, 52⟩] [9] rfl
      (by intro b hb; rcases List.mem_singleton.mp hb with rfl; decide) h

end ClaimC10
